import Mathlib

/-!
Verification of the transactional change log / undo-redo core of the
maxGraph diagram-editing library against its natural-language specification.

The development shallowly embeds the TypeScript sources:
  packages/core/src/view/graph/mxLayoutManager.ts
  packages/core/src/view/undoable_changes/StyleChange.ts  (plus Outline)
and, where the deciding code is repository code outside the provided
sources (the graph model transaction engine, the undo history, the codec
registry, mxUtils.sortCells), models it from the specification text; such
definitions say so in their doc comments.
-/

set_option maxRecDepth 2000

/-! ## Cells

A cell of the document tree, as used by mxLayoutManager.  A cell carries an
identity (JavaScript reference identity is modelled by the id), a parent
reference (cell.getParent()) and an ordered list of children
(cell.getChildCount() / cell.getChildAt(i)).  Both the parent chain and the
child list are embedded structurally so that the recursions of
addAncestorsWithLayout / addDescendantsWithLayout terminate the way the
acyclic tree makes them terminate in the source. -/

inductive MxCell : Type where
  | mk (id : Nat) (parent : Option MxCell) (children : List MxCell)

namespace MxCell

def cellId : MxCell → Nat
  | .mk i _ _ => i

def getParent : MxCell → Option MxCell
  | .mk _ p _ => p

def childrenOf : MxCell → List MxCell
  | .mk _ _ cs => cs

def getChildCount (c : MxCell) : Nat := c.childrenOf.length

/-- JavaScript reference equality between cells is modelled as equality of
ids (distinct live objects have distinct ids). -/
def jsEq (a b : MxCell) : Bool := a.cellId == b.cellId

end MxCell

/-! ## Atomic changes

The change classes dispatched on by mxLayoutManager.getCellsForChange
(instanceof tests on mxRootChange, mxChildChange, mxTerminalChange,
mxGeometryChange, mxVisibleChange, mxStyleChange; anything else falls
through to the empty-array return). -/

inductive MxChange : Type where
  | rootChange
  | childChange (child : MxCell) (previous : Option MxCell)
  | terminalChange (cell : MxCell)
  | geometryChange (cell : MxCell)
  | visibleChange (cell : MxCell)
  | styleChange (cell : MxCell)
  | otherChange

/-- Event names passed to getLayout. -/
inductive LMEvent : Type where
  | layoutCellsEvt
  | beginUpdateEvt
  | endUpdateEvt
  | moveCellsEvt
  | resizeCellsEvt
deriving DecidableEq

/-- A layout object: its execute(cell) method, which may throw. -/
def MxLayout : Type := MxCell → Except Unit Unit

/-- The ambient state an mxLayoutManager closes over: the getLayout hook
(overridden by clients, returns null by default in the base class), the
bubbling flag, the model root (model.getRoot()), whether a LAYOUT_CELLS
listener throws, and mxUtils.sortCells, which lives outside the provided
sources and is therefore kept abstract. -/
structure LMParams where
  getLayout : MxCell → LMEvent → Option MxLayout
  bubbling : Bool
  root : MxCell
  fireLayoutCellsThrows : List MxCell → Bool
  sortCells : List MxCell → List MxCell

namespace MxLayoutManager

/-- hasLayout(cell): return !!this.getLayout(cell, mxEvent.LAYOUT_CELLS). -/
def hasLayout (lm : LMParams) (cell : MxCell) : Bool :=
  (lm.getLayout cell .layoutCellsEvt).isSome

/-- In JavaScript a boolean value compares non-strictly unequal to null
whatever its value: the test (layout != null) performed by
addAncestorsWithLayout on the boolean returned by hasLayout is always true. -/
def boolNeNull (_b : Bool) : Bool := true

/-- addAncestorsWithLayout(cell, result): if cell is non-null, push it when
(hasLayout(cell) != null) - which always holds since hasLayout returns a
boolean - and, when bubbling, recurse on cell.getParent(). -/
def addAncestorsWithLayout (lm : LMParams) :
    Option MxCell → List MxCell → List MxCell
  | none, result => result
  | some (.mk i p cs), result =>
    let layout := hasLayout lm (.mk i p cs)
    let result1 := if boolNeNull layout then result ++ [MxCell.mk i p cs] else result
    if lm.bubbling then addAncestorsWithLayout lm p result1 else result1

mutual

/-- addDescendantsWithLayout(cell, result): if cell is non-null and has a
layout, walk its children; each child that has a layout is pushed and
recursed into. -/
def addDescendantsWithLayout (lm : LMParams) :
    Option MxCell → List MxCell → List MxCell
  | none, result => result
  | some (.mk i p cs), result =>
    if hasLayout lm (.mk i p cs) then descendantsLoop lm cs result else result
termination_by o _ => sizeOf o
decreasing_by
  all_goals simp_wf
  all_goals omega

/-- The for-loop over cell.getChildAt(i) inside addDescendantsWithLayout. -/
def descendantsLoop (lm : LMParams) :
    List MxCell → List MxCell → List MxCell
  | [], result => result
  | child :: rest, result =>
    let result1 :=
      if hasLayout lm child then
        addDescendantsWithLayout lm (some child) (result ++ [child])
      else result
    descendantsLoop lm rest result1
termination_by l _ => sizeOf l
decreasing_by
  all_goals simp_wf
  all_goals
    first
      | omega
      | (have hrest : 0 < sizeOf rest := by cases rest <;> simp_arith
         omega)

end

/-- addCellsWithLayout(cell, result) =
addDescendantsWithLayout(cell, addAncestorsWithLayout(cell, result)). -/
def addCellsWithLayout (lm : LMParams) (cell : Option MxCell)
    (result : List MxCell) : List MxCell :=
  addDescendantsWithLayout lm cell (addAncestorsWithLayout lm cell result)

/-- getCellsForChange(change): dispatch on the change class. -/
def getCellsForChange (lm : LMParams) : MxChange → List MxCell
  | .childChange child previous =>
    addCellsWithLayout lm (some child) (addCellsWithLayout lm previous [])
  | .terminalChange c => addCellsWithLayout lm (some c) []
  | .geometryChange c => addCellsWithLayout lm (some c) []
  | .visibleChange c => addCellsWithLayout lm (some c) []
  | .styleChange c => addCellsWithLayout lm (some c) []
  | .rootChange => []
  | .otherChange => []

/-- The loop of getCellsForChanges: on the first mxRootChange a fresh empty
array is returned immediately, discarding the accumulator; otherwise the
cells for the change are concatenated. -/
def getCellsForChangesGo (lm : LMParams) :
    List MxChange → List MxCell → List MxCell
  | [], result => result
  | c :: rest, result =>
    match c with
    | .rootChange => []
    | c => getCellsForChangesGo lm rest (result ++ getCellsForChange lm c)

/-- getCellsForChanges(changes). -/
def getCellsForChanges (lm : LMParams) (changes : List MxChange) : List MxCell :=
  getCellsForChangesGo lm changes []

/-- The observable side effects of a layoutCells / beforeUndo run on the
model and the event bus: how often model.beginUpdate() and model.endUpdate()
were called, which LAYOUT_CELLS events were fired (each carrying its cells
property) and which cells were passed to executeLayout. -/
structure LayoutEffects where
  beginUpdates : Nat
  endUpdates : Nat
  eventsFired : List (List MxCell)
  layoutsExecuted : List MxCell

def noEffects : LayoutEffects :=
  { beginUpdates := 0, endUpdates := 0, eventsFired := [], layoutsExecuted := [] }

def LayoutEffects.append (a b : LayoutEffects) : LayoutEffects :=
  { beginUpdates := a.beginUpdates + b.beginUpdates
    endUpdates := a.endUpdates + b.endUpdates
    eventsFired := a.eventsFired ++ b.eventsFired
    layoutsExecuted := a.layoutsExecuted ++ b.layoutsExecuted }

/-- executeLayout(cell, bubble): fetch the layout for BEGIN_UPDATE or
END_UPDATE and run layout.execute(cell) when non-null; execute may throw. -/
def executeLayout (lm : LMParams) (cell : MxCell) (bubble : Bool) :
    Except Unit Unit :=
  match lm.getLayout cell (if bubble then .beginUpdateEvt else .endUpdateEvt) with
  | none => Except.ok ()
  | some layout => layout cell

/-- The for-loop of layoutCells: skip the root and consecutive duplicates
(last), call executeLayout on the rest; a thrown exception aborts the loop
and propagates. -/
def layoutCellsGo (lm : LMParams) (bubble : Bool) :
    List MxCell → Option Nat → LayoutEffects → LayoutEffects × Option Unit
  | [], _, eff => (eff, none)
  | cell :: rest, last, eff =>
    if cell.cellId ≠ lm.root.cellId ∧ some cell.cellId ≠ last then
      let eff1 := { eff with layoutsExecuted := eff.layoutsExecuted ++ [cell] }
      match executeLayout lm cell bubble with
      | Except.error e => (eff1, some e)
      | Except.ok _ => layoutCellsGo lm bubble rest (some cell.cellId) eff1
    else
      layoutCellsGo lm bubble rest last eff

/-- layoutCells(cells, bubble): when cells is non-empty, beginUpdate, run
the loop, fire LAYOUT_CELLS (whose listeners may throw), and endUpdate in
the finally clause, so endUpdate runs even when the loop or the dispatch
threw; the exception still propagates.  When cells is empty nothing at all
happens. -/
def layoutCells (lm : LMParams) (cells : List MxCell) (bubble : Bool) :
    LayoutEffects × Option Unit :=
  if cells.length > 0 then
    let eff0 : LayoutEffects :=
      { beginUpdates := 1, endUpdates := 0, eventsFired := [], layoutsExecuted := [] }
    let r := layoutCellsGo lm bubble cells none eff0
    let r2 :=
      match r.2 with
      | some e => (r.1, some e)
      | none =>
        ({ r.1 with eventsFired := r.1.eventsFired ++ [cells] },
          if lm.fireLayoutCellsThrows cells then some () else none)
    ({ r2.1 with endUpdates := r2.1.endUpdates + 1 }, r2.2)
  else
    (noEffects, none)

/-- executeLayoutForCells(cells): sort, layout top-down with bubble, then
bottom-up on the reversed order; an exception from the first pass skips the
second (there is no try/catch here). -/
def executeLayoutForCells (lm : LMParams) (cells : List MxCell) :
    LayoutEffects × Option Unit :=
  let sorted := lm.sortCells cells
  let r1 := layoutCells lm sorted true
  match r1.2 with
  | some e => (r1.1, some e)
  | none =>
    let r2 := layoutCells lm sorted.reverse false
    (r1.1.append r2.1, r2.2)

/-- beforeUndo(undoableEdit) =
executeLayoutForCells(getCellsForChanges(undoableEdit.changes)). -/
def beforeUndo (lm : LMParams) (changes : List MxChange) :
    LayoutEffects × Option Unit :=
  executeLayoutForCells lm (getCellsForChanges lm changes)

end MxLayoutManager

/-! ## Lemmas about the layout manager -/

namespace MxLayoutManager

/-- addAncestorsWithLayout only ever appends to the result array it was
given. -/
theorem addAncestorsWithLayout_extends (lm : LMParams) (o : Option MxCell)
    (res : List MxCell) :
    ∃ t, addAncestorsWithLayout lm o res = res ++ t := by
  induction o, res using addAncestorsWithLayout.induct lm with
  | case1 result => exact ⟨[], by simp [addAncestorsWithLayout]⟩
  | case2 i p cs result layout result1 hb ih =>
    simp [result1, layout, boolNeNull] at ih
    obtain ⟨t, ht⟩ := ih
    refine ⟨MxCell.mk i p cs :: t, ?_⟩
    simp [addAncestorsWithLayout, boolNeNull, hb, ht]
  | case3 i p cs result hnb =>
    refine ⟨[MxCell.mk i p cs], ?_⟩
    simp [addAncestorsWithLayout, boolNeNull, hnb]

/-- The cell handed to addAncestorsWithLayout is pushed right behind the
incoming result, whatever hasLayout returns for it. -/
theorem addAncestorsWithLayout_self (lm : LMParams) (cell : MxCell)
    (res : List MxCell) :
    ∃ t, addAncestorsWithLayout lm (some cell) res = (res ++ [cell]) ++ t := by
  obtain ⟨i, p, cs⟩ := cell
  by_cases hb : lm.bubbling = true
  · obtain ⟨t, ht⟩ := addAncestorsWithLayout_extends lm p (res ++ [MxCell.mk i p cs])
    refine ⟨t, ?_⟩
    simp [addAncestorsWithLayout, boolNeNull, hb, ht]
  · refine ⟨[], ?_⟩
    simp [addAncestorsWithLayout, boolNeNull, hb]

/-- The proper ancestors of a cell: its parent chain. -/
def ancestorChain : MxCell → List MxCell
  | .mk _ none _ => []
  | .mk _ (some p) _ => p :: ancestorChain p

/-- With bubbling enabled, every ancestor of the cell ends up in the result
of addAncestorsWithLayout, whatever hasLayout returns along the chain. -/
theorem addAncestorsWithLayout_ancestors (lm : LMParams)
    (hb : lm.bubbling = true) (cell : MxCell) :
    ∀ (res : List MxCell) (a : MxCell), a ∈ ancestorChain cell →
      a ∈ addAncestorsWithLayout lm (some cell) res := by
  induction cell using ancestorChain.induct with
  | case1 i cs => intro res a ha; simp [ancestorChain] at ha
  | case2 i q cs ih =>
    intro res a ha
    have hstep : addAncestorsWithLayout lm (some (MxCell.mk i (some q) cs)) res
        = addAncestorsWithLayout lm (some q) (res ++ [MxCell.mk i (some q) cs]) := by
      simp [addAncestorsWithLayout, boolNeNull, hb]
    rw [hstep]
    rcases List.mem_cons.mp (by simpa [ancestorChain] using ha) with h | h
    · subst h
      obtain ⟨t, ht⟩ := addAncestorsWithLayout_self lm a
        (res ++ [MxCell.mk i (some a) cs])
      rw [ht]; simp
    · exact ih _ a h

/-- Every cell addDescendantsWithLayout adds beyond the incoming result has
a layout. -/
theorem addDescendantsWithLayout_hasLayout (lm : LMParams) :
    ∀ o res, ∀ c ∈ addDescendantsWithLayout lm o res,
      c ∈ res ∨ hasLayout lm c = true := by
  refine addDescendantsWithLayout.induct lm
    (fun o res => ∀ c ∈ addDescendantsWithLayout lm o res,
      c ∈ res ∨ hasLayout lm c = true)
    (fun l res => ∀ c ∈ descendantsLoop lm l res,
      c ∈ res ∨ hasLayout lm c = true)
    ?_ ?_ ?_ ?_ ?_
  · intro result c hc
    exact Or.inl (by simpa [addDescendantsWithLayout] using hc)
  · intro i p cs result hl ih c hc
    simp only [addDescendantsWithLayout, hl, if_true] at hc
    exact ih c hc
  · intro i p cs result hl c hc
    simp only [addDescendantsWithLayout, hl, if_false] at hc
    exact Or.inl (by simpa using hc)
  · intro result c hc
    exact Or.inl (by simpa [descendantsLoop] using hc)
  · intro child rest result result1 ih1 ih2 c hc
    simp only [descendantsLoop] at hc
    by_cases hl : hasLayout lm child = true
    · simp only [result1, hl, if_true] at ih2
      simp only [hl, if_true] at hc
      rcases ih2 c hc with h | h
      · rcases ih1 c h with h2 | h2
        · rcases List.mem_append.mp h2 with h3 | h3
          · exact Or.inl h3
          · exact Or.inr (by simpa [List.mem_singleton.mp h3] using hl)
        · exact Or.inr h2
      · exact Or.inr h
    · simp only [result1, hl, if_false] at ih2
      simp only [hl, if_false] at hc
      exact ih2 c hc

end MxLayoutManager

/-! ## Claims about the layout manager -/

namespace MxLayoutManager

theorem layoutCellsGo_counts (lm : LMParams) (bubble : Bool) :
    ∀ (l : List MxCell) (last : Option Nat) (eff : LayoutEffects),
      (layoutCellsGo lm bubble l last eff).1.beginUpdates = eff.beginUpdates
      ∧ (layoutCellsGo lm bubble l last eff).1.endUpdates = eff.endUpdates
      ∧ (layoutCellsGo lm bubble l last eff).1.eventsFired = eff.eventsFired := by
  intro l
  induction l with
  | nil => intro last eff; simp [layoutCellsGo]
  | cons cell rest ih =>
    intro last eff
    simp only [layoutCellsGo]
    by_cases hcond : cell.cellId ≠ lm.root.cellId ∧ some cell.cellId ≠ last
    · rw [if_pos hcond]
      cases hex : executeLayout lm cell bubble with
      | error e => simp
      | ok u => simpa using ih _ _
    · rw [if_neg hcond]
      exact ih _ _

end MxLayoutManager

open MxLayoutManager in
theorem claim_C9 (lm : LMParams) (cells : List MxCell) (bubble : Bool) :
    (cells ≠ [] →
      (layoutCells lm cells bubble).1.beginUpdates = 1
      ∧ (layoutCells lm cells bubble).1.endUpdates = 1)
    ∧ (cells = [] → layoutCells lm cells bubble = (noEffects, none)) := by
  constructor
  · intro h
    have hlen : cells.length > 0 := List.length_pos.mpr h
    simp only [layoutCells, if_pos hlen]
    cases hr : (layoutCellsGo lm bubble cells none
        { beginUpdates := 1, endUpdates := 0, eventsFired := [], layoutsExecuted := [] }).2 with
    | some e =>
      simp only [hr]
      have := layoutCellsGo_counts lm bubble cells none
        { beginUpdates := 1, endUpdates := 0, eventsFired := [], layoutsExecuted := [] }
      exact ⟨this.1, by simp [this.2.1]⟩
    | none =>
      simp only [hr]
      have := layoutCellsGo_counts lm bubble cells none
        { beginUpdates := 1, endUpdates := 0, eventsFired := [], layoutsExecuted := [] }
      exact ⟨this.1, by simp [this.2.1]⟩
  · intro h
    subst h
    rfl

namespace MxLayoutManager

theorem getCellsForChangesGo_root (lm : LMParams) :
    ∀ (changes : List MxChange) (acc : List MxCell),
      MxChange.rootChange ∈ changes → getCellsForChangesGo lm changes acc = [] := by
  intro changes
  induction changes with
  | nil => intro acc h; simp at h
  | cons c rest ih =>
    intro acc h
    cases c with
    | rootChange => simp [getCellsForChangesGo]
    | childChange child previous =>
      have : MxChange.rootChange ∈ rest := by
        rcases List.mem_cons.mp h with h1 | h1
        · exact absurd h1 (by simp)
        · exact h1
      simpa [getCellsForChangesGo] using ih _ this
    | terminalChange cl =>
      have : MxChange.rootChange ∈ rest := by
        rcases List.mem_cons.mp h with h1 | h1
        · exact absurd h1 (by simp)
        · exact h1
      simpa [getCellsForChangesGo] using ih _ this
    | geometryChange cl =>
      have : MxChange.rootChange ∈ rest := by
        rcases List.mem_cons.mp h with h1 | h1
        · exact absurd h1 (by simp)
        · exact h1
      simpa [getCellsForChangesGo] using ih _ this
    | visibleChange cl =>
      have : MxChange.rootChange ∈ rest := by
        rcases List.mem_cons.mp h with h1 | h1
        · exact absurd h1 (by simp)
        · exact h1
      simpa [getCellsForChangesGo] using ih _ this
    | styleChange cl =>
      have : MxChange.rootChange ∈ rest := by
        rcases List.mem_cons.mp h with h1 | h1
        · exact absurd h1 (by simp)
        · exact h1
      simpa [getCellsForChangesGo] using ih _ this
    | otherChange =>
      have : MxChange.rootChange ∈ rest := by
        rcases List.mem_cons.mp h with h1 | h1
        · exact absurd h1 (by simp)
        · exact h1
      simpa [getCellsForChangesGo] using ih _ this

theorem beforeUndo_of_no_cells (lm : LMParams) (changes : List MxChange)
    (hsort : lm.sortCells [] = []) (h : getCellsForChanges lm changes = []) :
    beforeUndo lm changes = (noEffects, none) := by
  simp only [beforeUndo, executeLayoutForCells, h, hsort]
  rfl

end MxLayoutManager

def rootCell : MxCell := .mk 0 none []

def cellB : MxCell := .mk 2 none []

def cellA : MxCell := .mk 1 (some cellB) []

/-- A sample layout manager environment: no layouts anywhere, bubbling on,
identity sort, no throwing listeners. -/
def sampleLM : LMParams :=
  { getLayout := fun _ _ => none
    bubbling := true
    root := rootCell
    fireLayoutCellsThrows := fun _ => false
    sortCells := fun l => l }

/-- A layout manager environment whose layouts and LAYOUT_CELLS listeners
all throw. -/
def throwLM : LMParams :=
  { getLayout := fun _ e =>
      if e = LMEvent.layoutCellsEvt then none
      else some ((fun _ => Except.error ()) : MxLayout)
    bubbling := true
    root := rootCell
    fireLayoutCellsThrows := fun _ => true
    sortCells := fun l => l }

open MxLayoutManager in
theorem claim_C5 (lm : LMParams) (hsort : lm.sortCells [] = []) :
    getCellsForChanges lm [] = []
    ∧ (∀ b, layoutCells lm [] b = (noEffects, none))
    ∧ beforeUndo lm [] = (noEffects, none) :=
  ⟨rfl, fun _ => rfl, beforeUndo_of_no_cells lm [] hsort rfl⟩

open MxLayoutManager in
theorem claim_C5_witness :
    MxLayoutManager.beforeUndo sampleLM [] = (MxLayoutManager.noEffects, none) :=
  (claim_C5 sampleLM rfl).2.2

open MxLayoutManager in
theorem claim_C8 (lm : LMParams) (changes : List MxChange)
    (hroot : MxChange.rootChange ∈ changes) (hsort : lm.sortCells [] = []) :
    getCellsForChanges lm changes = []
    ∧ beforeUndo lm changes = (noEffects, none) := by
  have h := getCellsForChangesGo_root lm changes [] hroot
  exact ⟨h, beforeUndo_of_no_cells lm changes hsort h⟩

open MxLayoutManager in
theorem claim_C8_witness :
    MxLayoutManager.getCellsForChanges sampleLM
        [MxChange.geometryChange cellA, MxChange.rootChange] = []
    ∧ MxLayoutManager.beforeUndo sampleLM
        [MxChange.geometryChange cellA, MxChange.rootChange]
      = (MxLayoutManager.noEffects, none) :=
  claim_C8 sampleLM [MxChange.geometryChange cellA, MxChange.rootChange]
    (by simp) rfl

open MxLayoutManager in
theorem claim_C9_witness :
    ((layoutCells throwLM [cellA] true).1.beginUpdates = 1
      ∧ (layoutCells throwLM [cellA] true).1.endUpdates = 1)
    ∧ layoutCells throwLM ([] : List MxCell) true = (noEffects, none) :=
  ⟨(claim_C9 throwLM [cellA] true).1 (by simp),
   (claim_C9 throwLM [] true).2 rfl⟩

open MxLayoutManager in
theorem claim_C10 (lm : LMParams) (cell : MxCell) (result : List MxCell) :
    (∃ t, addAncestorsWithLayout lm (some cell) result = (result ++ [cell]) ++ t)
    ∧ (lm.bubbling = true → ∀ a ∈ ancestorChain cell,
        a ∈ addAncestorsWithLayout lm (some cell) result)
    ∧ (∀ (o : Option MxCell) (res : List MxCell) (c : MxCell),
        c ∈ addDescendantsWithLayout lm o res → c ∈ res ∨ hasLayout lm c = true) :=
  ⟨addAncestorsWithLayout_self lm cell result,
   fun hb a ha => addAncestorsWithLayout_ancestors lm hb cell result a ha,
   fun o res c hc => addDescendantsWithLayout_hasLayout lm o res c hc⟩

open MxLayoutManager in
theorem claim_C10_witness :
    cellB ∈ MxLayoutManager.addAncestorsWithLayout sampleLM (some cellA) [] :=
  (claim_C10 sampleLM cellA []).2.1 rfl cellB
    (by simp [cellA, cellB, MxLayoutManager.ancestorChain])

/-! ## StyleChange

Embedding of packages/core/src/view/undoable_changes/StyleChange.ts.  Cell
styles are opaque to StyleChange, so the style type is a parameter; the
relevant part of the GraphDataModel is the assignment of a style to every
cell (cells are identified by id). -/

def GraphModelStyles (Style : Type) : Type := Nat → Style

/-- Modelled from the spec: GraphDataModel.styleForCellChanged is not among
the provided sources (only its caller StyleChange.execute is).  Per the
specification, execute performs the mutation and flips the stored
previous/new, so styleForCellChanged stores the given style on the cell and
returns the style the cell had before. -/
def styleForCellChanged {Style : Type} (m : GraphModelStyles Style)
    (cell : Nat) (style : Style) : GraphModelStyles Style × Style :=
  (fun c => if c = cell then style else m c, m cell)

/-- The fields of a StyleChange record (the stored model reference is the
state threaded through construct/execute). -/
structure StyleChange (Style : Type) where
  cell : Nat
  style : Style
  previous : Style

/-- The StyleChange constructor: stores cell and style and sets
previous := style - the new style, not the style currently on the cell -
and does not touch the model. -/
def StyleChange.construct {Style : Type} (m : GraphModelStyles Style)
    (cell : Nat) (style : Style) :
    GraphModelStyles Style × StyleChange Style :=
  (m, { cell := cell, style := style, previous := style })

/-- StyleChange.execute: this.style = this.previous; this.previous =
this.model.styleForCellChanged(this.cell, this.previous). -/
def StyleChange.execute {Style : Type} (m : GraphModelStyles Style)
    (sc : StyleChange Style) : GraphModelStyles Style × StyleChange Style :=
  let style1 := sc.previous
  let r := styleForCellChanged m sc.cell sc.previous
  (r.1, { cell := sc.cell, style := style1, previous := r.2 })

/-- C2: for every StyleChange record, execute applies the stored value to
the cell and swaps previous/new (previous receives the cell's pre-mutation
style), and executing twice in succession returns the model to its
pre-mutation state: the second execute is the exact inverse of the first. -/
theorem claim_C2 {Style : Type} (m : GraphModelStyles Style)
    (sc : StyleChange Style) :
    ((StyleChange.execute m sc).1 sc.cell = sc.previous
      ∧ (StyleChange.execute m sc).2.previous = m sc.cell)
    ∧ ∀ c,
      (StyleChange.execute (StyleChange.execute m sc).1
        (StyleChange.execute m sc).2).1 c = m c := by
  refine ⟨⟨by simp [StyleChange.execute, styleForCellChanged], rfl⟩, ?_⟩
  intro c
  by_cases hc : c = sc.cell
  · subst hc; simp [StyleChange.execute, styleForCellChanged]
  · simp [StyleChange.execute, styleForCellChanged, hc]

/-- C3 counterexample: take the model in which every cell has style 0 and
construct a StyleChange for cell 0 with new style 1.  Immediately after
construction the stored previous value is 1, the new style, not the cell's
pre-mutation style 0. -/
theorem claim_C3_counterexample :
    (StyleChange.construct (fun _ => (0 : Nat)) 0 1).2.previous
      ≠ (fun _ => (0 : Nat)) 0 := by
  decide

/-- C3 amended: construction leaves the document tree untouched, but it
stores the new style in both fields (previous := style); the cell's
pre-mutation style is captured only by the first execute(), after which the
stored previous value equals the style the cell had before the change. -/
theorem claim_C3_amended {Style : Type} (m : GraphModelStyles Style)
    (cell : Nat) (style : Style) :
    (StyleChange.construct m cell style).1 = m
    ∧ (StyleChange.construct m cell style).2.previous = style
    ∧ (StyleChange.execute m (StyleChange.construct m cell style).2).2.previous
        = m cell :=
  ⟨rfl, rfl, rfl⟩

/-! ## Change-Kind Registry -/

/-- Modelled from the spec: the CodecRegistry consumed at the foot of
StyleChange.ts is not among the provided sources.  Per the specification
(section 4.5), the Change-Kind Registry maps a stable string tag to a
codec; register(tag, codec) fails loudly with a duplicate-registration
error when the tag already exists, and lookup(tag) returns the codec or an
absent result. -/
structure CodecRegistry (Codec : Type) where
  entries : List (String × Codec)

inductive RegistryError : Type where
  | duplicateRegistration (tag : String)
deriving DecidableEq

def CodecRegistry.register {Codec : Type} (reg : CodecRegistry Codec)
    (tag : String) (codec : Codec) :
    Except RegistryError (CodecRegistry Codec) :=
  if reg.entries.any (fun e => e.1 == tag) then
    Except.error (RegistryError.duplicateRegistration tag)
  else
    Except.ok ⟨reg.entries ++ [(tag, codec)]⟩

def CodecRegistry.lookup {Codec : Type} (reg : CodecRegistry Codec)
    (tag : String) : Option Codec :=
  (reg.entries.find? (fun e => e.1 == tag)).map (fun e => e.2)

/-- C6: registering a tag that is already registered fails loudly with a
duplicate-registration error, while looking up an unregistered tag returns
an absent result rather than crashing. -/
theorem claim_C6 {Codec : Type} (reg reg2 : CodecRegistry Codec)
    (tag tag2 : String) (codec codec2 : Codec)
    (hreg : reg.register tag codec = Except.ok reg2)
    (habsent : ∀ e ∈ reg.entries, e.1 ≠ tag2) :
    reg2.register tag codec2
      = Except.error (RegistryError.duplicateRegistration tag)
    ∧ reg.lookup tag2 = none := by
  constructor
  · by_cases hdup : reg.entries.any (fun e => e.1 == tag)
    · simp [CodecRegistry.register, hdup] at hreg
    · simp [CodecRegistry.register, hdup] at hreg
      simp [CodecRegistry.register, ← hreg]
  · cases hfind : reg.entries.find? (fun e => e.1 == tag2) with
    | none => simp [CodecRegistry.lookup, hfind]
    | some e =>
      have h1 := List.find?_some hfind
      have h2 := List.mem_of_find?_eq_some hfind
      exact absurd (by simpa using h1) (habsent e h2)

/-- Witness for C6: registering the tag "style" a second time raises the
duplicate-registration error, and looking up the unregistered tag "unknown"
returns an absent result. -/
theorem claim_C6_witness :
    CodecRegistry.register (⟨[("style", "codec1")]⟩ : CodecRegistry String)
        "style" "codec2"
      = Except.error (RegistryError.duplicateRegistration "style")
    ∧ CodecRegistry.lookup (⟨[("style", "codec1")]⟩ : CodecRegistry String)
        "unknown" = none :=
  claim_C6 ⟨[]⟩ ⟨[("style", "codec1")]⟩ "style" "unknown" "codec1" "codec2"
    (by simp [CodecRegistry.register]) (by simp)

/-! ## Outline

Embedding of Outline.update (and the updateHandler that the change, scale,
translate, scale-and-translate, up/down and scroll listeners invoke).
JavaScript numbers are modelled by rationals; division by zero yields 0
instead of an infinity and the Number.isNaN(outlineScale) test is embedded
as the 0/0 condition that produces NaN there.  This approximation can only
change which numeric values are computed, never which fields of the state
are written, which is what claim C7 is about. -/

structure OPoint where
  x : ℚ
  y : ℚ
deriving DecidableEq

structure ORect where
  x : ℚ
  y : ℚ
  w : ℚ
  h : ℚ
deriving DecidableEq

/-- Rectangle.add (outside the provided sources): grows the rectangle to
the union of the two. -/
def ORect.add (r q : ORect) : ORect :=
  let right := max (r.x + r.w) (q.x + q.w)
  let bottom := max (r.y + r.h) (q.y + q.h)
  let nx := min r.x q.x
  let ny := min r.y q.y
  ⟨nx, ny, right - nx, bottom - ny⟩

structure OView where
  scale : ℚ
  translate : OPoint
  currentRoot : Option Nat
deriving DecidableEq

structure OContainer where
  clientWidth : ℚ
  clientHeight : ℚ
  scrollWidth : ℚ
  scrollHeight : ℚ
  scrollLeft : ℚ
  scrollTop : ℚ
deriving DecidableEq

/-- The source graph as Outline.update reads it.  The document model it
observes is opaque to the outline and is carried as a type parameter, so
that preserving it is a meaningful statement for any model. -/
structure SourceGraph (Model : Type) where
  model : Model
  view : OView
  panDx : ℚ
  panDy : ℚ
  container : Option OContainer
  graphBounds : ORect

/-- The state Outline.update reads and writes: the source graph (read
only), the outline graph view it drives, and its own shapes. -/
structure OutlineState (Model : Type) where
  source : SourceGraph Model
  outlineView : OView
  outlineContainer : Option OContainer
  bounds : ORect
  selectionBorderBounds : ORect
  sizerBounds : ORect
  sizerVisibilityHidden : Bool
  border : ℚ
  minScale : ℚ
  revalidations : Nat
  redraws : Nat
  suspended : Bool
  active : Bool

namespace Outline

/-- Outline.update(revalidate): reads the source graph geometry and
recomputes the outline view scale/translate/current root, the viewport
bounds, the selection border and the sizer handle. -/
def update {Model : Type} (s : OutlineState Model) (revalidate : Bool) :
    OutlineState Model :=
  match s.source.container, s.outlineContainer with
  | some container, some outContainer =>
    let sourceScale := s.source.view.scale
    let scaledGraphBounds := s.source.graphBounds
    let unscaledGraphBounds : ORect :=
      ⟨scaledGraphBounds.x / sourceScale + s.source.panDx,
       scaledGraphBounds.y / sourceScale + s.source.panDy,
       scaledGraphBounds.w / sourceScale,
       scaledGraphBounds.h / sourceScale⟩
    let unscaledFinderBounds : ORect :=
      ⟨0, 0, container.clientWidth / sourceScale,
       container.clientHeight / sourceScale⟩
    let union := ORect.add unscaledGraphBounds unscaledFinderBounds
    let completeWidth := max (container.scrollWidth / sourceScale) union.w
    let completeHeight := max (container.scrollHeight / sourceScale) union.h
    let availableWidth := max 0 (outContainer.clientWidth - s.border)
    let availableHeight := max 0 (outContainer.clientHeight - s.border)
    let outlineScale :=
      min (availableWidth / completeWidth) (availableHeight / completeHeight)
    let isNaNScale :=
      (availableWidth = 0 ∧ completeWidth = 0)
      ∨ (availableHeight = 0 ∧ completeHeight = 0)
    let scale := if isNaNScale then s.minScale else max s.minScale outlineScale
    if 0 < scale then
      let revalidate1 := revalidate || decide (s.outlineView.scale ≠ scale)
      let navRoot := s.source.view.currentRoot
      let t := s.source.view.translate
      let tx := t.x + s.source.panDx
      let ty := t.y + s.source.panDy
      let tx2 := if unscaledGraphBounds.x < 0 then tx - unscaledGraphBounds.x else tx
      let ty2 := if unscaledGraphBounds.y < 0 then ty - unscaledGraphBounds.y else ty
      let revalidate2 := revalidate1
        || decide (s.outlineView.translate.x ≠ tx2 ∨ s.outlineView.translate.y ≠ ty2)
      let t2 : OPoint := ⟨tx2, ty2⟩
      let scaleS := s.source.view.scale
      let scale2 := scaleS / scale
      let scale3 := 1 / scale
      let bounds1 : ORect :=
        ⟨(t2.x - t.x - s.source.panDx) / scale3
           + container.scrollLeft * scale / scaleS,
         (t2.y - t.y - s.source.panDy) / scale3
           + container.scrollTop * scale / scaleS,
         container.clientWidth / scale2,
         container.clientHeight / scale2⟩
      let sbChanged := s.selectionBorderBounds ≠ bounds1
      let b := s.sizerBounds
      let b2 : ORect :=
        ⟨bounds1.x + bounds1.w - b.w / 2, bounds1.y + bounds1.h - b.h / 2,
         b.w, b.h⟩
      let szChanged := b ≠ b2
      { s with
        outlineView :=
          { scale := scale, translate := t2, currentRoot := navRoot }
        bounds := bounds1
        selectionBorderBounds :=
          if sbChanged then bounds1 else s.selectionBorderBounds
        sizerBounds := if szChanged then b2 else s.sizerBounds
        redraws := s.redraws
          + (if sbChanged then 1 else 0)
          + (if szChanged ∧ ¬s.sizerVisibilityHidden then 1 else 0)
        revalidations :=
          if revalidate2 then s.revalidations + 1 else s.revalidations }
    else s
  | _, _ => s

/-- The updateHandler installed for the CHANGE, SCALE, TRANSLATE,
SCALE_AND_TRANSLATE, DOWN, UP and scroll events: update() unless suspended
or active. -/
def updateHandler {Model : Type} (s : OutlineState Model) : OutlineState Model :=
  if s.suspended = false ∧ s.active = false then update s false else s

end Outline

theorem update_source_preserved {Model : Type} (s : OutlineState Model)
    (rev : Bool) : (Outline.update s rev).source = s.source := by
  unfold Outline.update
  rcases s.source.container with _ | c
  · rfl
  · rcases s.outlineContainer with _ | oc
    · rfl
    · simp only
      split_ifs <;> rfl

/-- C7: every Outline.update triggered by a change/scale/translate/scroll
event reads the source graph and mutates only the outline-side state; the
source graph - in particular the document model it observes - is left
exactly as it was, for every model type.  The updateHandler installed on
those events preserves it too. -/
theorem claim_C7 {Model : Type} (s : OutlineState Model) (rev : Bool) :
    (Outline.update s rev).source = s.source
    ∧ (Outline.updateHandler s).source = s.source := by
  refine ⟨update_source_preserved s rev, ?_⟩
  unfold Outline.updateHandler
  split
  · exact update_source_preserved s false
  · rfl

/-! ## Transaction engine

The Transaction Engine (mxGraphModel beginUpdate/endUpdate/execute), the
Undo/Redo History and the generic Change Record machinery live outside the
provided sources: only their listener mxLayoutManager and the StyleChange
variant are under src/.  They are therefore modelled from the
specification (sections 3, 4.1 and 4.3).  Cells and their mutable facets
are flattened into keys of the Document Tree below. -/

/-- Modelled from the spec: the Document Tree as the Transaction Engine
sees it - an assignment of a value to every mutable facet (key) of every
node. -/
def DocTree : Type := Nat → Nat

/-- Modelled from the spec: a Change Record in its generic shape
(section 3): it targets one mutable facet of one node and stores the value
to apply together with a previous value; every variant applies and inverts
itself this way (StyleChange in the sources has exactly this shape). -/
structure ChangeRec where
  key : Nat
  value : Nat
  previous : Nat
deriving DecidableEq

/-- Modelled from the spec: a freshly constructed Change Record for a
facet and target value - construction captures no tree state, as in
StyleChange, where previous is initialised to the new style. -/
def mkRec (k v : Nat) : ChangeRec := ⟨k, v, v⟩

/-- Modelled from the spec: executing one Change Record performs the
mutation and flips the stored previous/new so that a second execute
reverses it (section 3). -/
def applyRec (t : DocTree) (r : ChangeRec) : DocTree × ChangeRec :=
  ((fun k => if k = r.key then r.previous else t k),
   { key := r.key, value := r.previous, previous := t r.key })

/-- Executing a list of Change Records in order, collecting the
post-execute records. -/
def applyRecs (t : DocTree) : List ChangeRec → DocTree × List ChangeRec
  | [] => (t, [])
  | r :: rest =>
    let p := applyRec t r
    let q := applyRecs p.1 rest
    (q.1, p.2 :: q.2)

theorem applyRecs_append (t : DocTree) (xs ys : List ChangeRec) :
    applyRecs t (xs ++ ys)
      = ((applyRecs (applyRecs t xs).1 ys).1,
         (applyRecs t xs).2 ++ (applyRecs (applyRecs t xs).1 ys).2) := by
  induction xs generalizing t with
  | nil => simp [applyRecs]
  | cons r rest ih => simp [applyRecs, ih]

theorem applyRecs_reverse_replay (rs : List ChangeRec) :
    ∀ (t : DocTree) (k : Nat),
      (applyRecs (applyRecs t rs).1 ((applyRecs t rs).2).reverse).1 k = t k := by
  induction rs with
  | nil => intro t k; simp [applyRecs]
  | cons r rest ih =>
    intro t k
    simp only [applyRecs, List.reverse_cons]
    rw [applyRecs_append]
    simp only [applyRecs, applyRec]
    by_cases hk : k = r.key
    · subst hk
      simp [ih]
    · simp only [hk, if_false]
      have := ih (applyRec t r).1 k
      simp only [applyRec] at this
      rw [this]
      simp [hk]

/-- The operations a caller or a listener can direct at the Transaction
Engine: beginUpdate(), execute(change) for a fresh change on a facet, and
endUpdate(). -/
inductive TxOp : Type where
  | beginUpdate
  | execute (key : Nat) (value : Nat)
  | endUpdate
deriving DecidableEq

/-- Modelled from the spec: the Transaction Engine state (section 4.1)
together with the two-stack Undo/Redo History it pushes to (section 4.3)
and the change notifications it has fired on the bus. -/
structure Engine where
  tree : DocTree
  updateLevel : Nat
  endingUpdate : Bool
  currentEdit : List ChangeRec
  past : List (List ChangeRec)
  future : List (List ChangeRec)
  changeNotifs : List (List ChangeRec)

/-- A listener subscribed to the before-undo notification of a
finalizing top-level transaction: given the pending Change Record list, it
may direct further beginUpdate/execute/endUpdate calls at the engine (the
way mxLayoutManager.beforeUndo does through layoutCells). -/
def TxListener : Type := List ChangeRec → List TxOp

/-- Modelled from the spec: one operation issued while the engine is
finalizing ("currently finalizing" is detected as a re-entrant extension):
begin/end only move the nesting counter, execute applies the change and
appends it to the very transaction under finalization, and the counter
reaching zero does not start a second finalization. -/
def finalStep (e : Engine) : TxOp → Engine
  | .beginUpdate => { e with updateLevel := e.updateLevel + 1 }
  | .endUpdate => { e with updateLevel := e.updateLevel - 1 }
  | .execute k v =>
    let p := applyRec e.tree (mkRec k v)
    { e with tree := p.1, currentEdit := e.currentEdit ++ [p.2] }

/-- Runs the re-entrant operations of a listener during finalization. -/
def processFinalizing (e : Engine) (ops : List TxOp) : Engine :=
  ops.foldl finalStep e

/-- Modelled from the spec: finalization of the open transaction at
nesting level zero - fire before-undo (letting the listener extend the same
transaction re-entrantly), push the finalized transaction onto the past
stack (clearing future), and fire exactly one change notification carrying
the finalized Change Record list. -/
def finalize (L : TxListener) (e : Engine) : Engine :=
  let e1 := processFinalizing { e with endingUpdate := true } (L e.currentEdit)
  { e1 with
    past := e1.currentEdit :: e1.past
    future := []
    changeNotifs := e1.changeNotifs ++ [e1.currentEdit]
    currentEdit := []
    endingUpdate := false }

/-- Modelled from the spec: beginUpdate increments the nesting counter;
endUpdate at level zero is clamped and reported; otherwise it decrements
and finalizes when the counter returns to zero outside an ongoing
finalization; execute applies the change, appends it to the open
transaction and finalizes the implicitly opened transaction when no update
is open. -/
def execOp (L : TxListener) (e : Engine) : TxOp → Engine
  | .beginUpdate => { e with updateLevel := e.updateLevel + 1 }
  | .endUpdate =>
    if e.updateLevel = 0 then e
    else
      let e1 := { e with updateLevel := e.updateLevel - 1 }
      if e1.updateLevel = 0 ∧ e1.endingUpdate = false then finalize L e1 else e1
  | .execute k v =>
    let p := applyRec e.tree (mkRec k v)
    let e1 := { e with tree := p.1, currentEdit := e.currentEdit ++ [p.2] }
    if e1.updateLevel = 0 ∧ e1.endingUpdate = false then finalize L e1 else e1

/-- Runs a caller program against the engine. -/
def runOps (L : TxListener) (e : Engine) (ops : List TxOp) : Engine :=
  ops.foldl (execOp L) e

/-- Modelled from the spec: undo() pops the most recent transaction from
the past stack, replays each of its records through execute in reverse
order, pushes the now-inverted transaction onto future, and the reversal is
notification-visible (section 4.3); on an empty past stack it is a benign
no-op. -/
def undoTx (e : Engine) : Engine :=
  match e.past with
  | [] => e
  | tx :: rest =>
    let p := applyRecs e.tree tx.reverse
    { e with
      tree := p.1
      past := rest
      future := p.2.reverse :: e.future
      changeNotifs := e.changeNotifs ++ [p.2] }

/-- The Change Records a program constructs, in order. -/
def opRecs : List TxOp → List ChangeRec
  | [] => []
  | .execute k v :: rest => mkRec k v :: opRecs rest
  | _ :: rest => opRecs rest

/-- The body of a top-level beginUpdate/endUpdate pair is properly
nested when, processed from the given nesting level, the level never
returns to zero: executes happen at level at least one and ends only from
level at least two. -/
def staysPosB : Nat → List TxOp → Bool
  | _, [] => true
  | lvl, .beginUpdate :: rest => staysPosB (lvl + 1) rest
  | lvl, .execute _ _ :: rest => decide (1 ≤ lvl) && staysPosB lvl rest
  | lvl, .endUpdate :: rest => decide (2 ≤ lvl) && staysPosB (lvl - 1) rest

/-- The nesting level after processing the operations. -/
def netLevel : Nat → List TxOp → Nat
  | lvl, [] => lvl
  | lvl, .beginUpdate :: rest => netLevel (lvl + 1) rest
  | lvl, .execute _ _ :: rest => netLevel lvl rest
  | lvl, .endUpdate :: rest => netLevel (lvl - 1) rest

theorem processFinalizing_fields (ops : List TxOp) :
    ∀ (e : Engine),
      (processFinalizing e ops).tree = (applyRecs e.tree (opRecs ops)).1
      ∧ (processFinalizing e ops).currentEdit
          = e.currentEdit ++ (applyRecs e.tree (opRecs ops)).2
      ∧ (processFinalizing e ops).endingUpdate = e.endingUpdate
      ∧ (processFinalizing e ops).past = e.past
      ∧ (processFinalizing e ops).future = e.future
      ∧ (processFinalizing e ops).changeNotifs = e.changeNotifs := by
  induction ops with
  | nil => intro e; simp [processFinalizing, opRecs, applyRecs]
  | cons op rest ih =>
    intro e
    cases op with
    | beginUpdate =>
      have h := ih { e with updateLevel := e.updateLevel + 1 }
      simpa [processFinalizing, finalStep, opRecs] using h
    | endUpdate =>
      have h := ih { e with updateLevel := e.updateLevel - 1 }
      simpa [processFinalizing, finalStep, opRecs] using h
    | execute k v =>
      have h := ih { e with
        tree := (applyRec e.tree (mkRec k v)).1
        currentEdit := e.currentEdit ++ [(applyRec e.tree (mkRec k v)).2] }
      simp only [processFinalizing, List.foldl_cons, finalStep] at h ⊢
      simp only [opRecs, applyRecs]
      refine ⟨h.1, ?_, h.2.2⟩
      rw [h.2.1]
      simp

theorem runOps_body (L : TxListener) (body : List TxOp) :
    ∀ (lvl : Nat) (e : Engine), 1 ≤ lvl → staysPosB lvl body = true →
      e.updateLevel = lvl → e.endingUpdate = false →
      (runOps L e body).updateLevel = netLevel lvl body
      ∧ (runOps L e body).endingUpdate = false
      ∧ (runOps L e body).tree = (applyRecs e.tree (opRecs body)).1
      ∧ (runOps L e body).currentEdit
          = e.currentEdit ++ (applyRecs e.tree (opRecs body)).2
      ∧ (runOps L e body).past = e.past
      ∧ (runOps L e body).future = e.future
      ∧ (runOps L e body).changeNotifs = e.changeNotifs := by
  induction body with
  | nil =>
    intro lvl e h1 h2 h3 h4
    simp [runOps, netLevel, opRecs, applyRecs, h3, h4]
  | cons op rest ih =>
    intro lvl e h1 h2 h3 h4
    cases op with
    | beginUpdate =>
      simp only [staysPosB] at h2
      have h := ih (lvl + 1) { e with updateLevel := e.updateLevel + 1 }
        (by omega) h2 (by simp [h3]) h4
      simpa [runOps, execOp, netLevel, opRecs] using h
    | endUpdate =>
      simp only [staysPosB, Bool.and_eq_true, decide_eq_true_eq] at h2
      have hne : ¬e.updateLevel = 0 := by omega
      have hne1 : ¬({ e with updateLevel := e.updateLevel - 1 }.updateLevel = 0
          ∧ ({ e with updateLevel := e.updateLevel - 1 } : Engine).endingUpdate = false) := by
        simp only
        intro hc
        omega
      have h := ih (lvl - 1) { e with updateLevel := e.updateLevel - 1 }
        (by omega) h2.2 (by simp [h3]) h4
      simp only [runOps, List.foldl_cons, execOp, if_neg hne, if_neg hne1] at h ⊢
      simpa [netLevel, opRecs] using h
    | execute k v =>
      simp only [staysPosB, Bool.and_eq_true, decide_eq_true_eq] at h2
      have hne1 : ¬(({ e with
          tree := (applyRec e.tree (mkRec k v)).1
          currentEdit := e.currentEdit ++ [(applyRec e.tree (mkRec k v)).2] } : Engine).updateLevel = 0
          ∧ ({ e with
          tree := (applyRec e.tree (mkRec k v)).1
          currentEdit := e.currentEdit ++ [(applyRec e.tree (mkRec k v)).2] } : Engine).endingUpdate = false) := by
        simp only
        intro hc
        omega
      have h := ih lvl { e with
          tree := (applyRec e.tree (mkRec k v)).1
          currentEdit := e.currentEdit ++ [(applyRec e.tree (mkRec k v)).2] }
        h1 h2.2 h3 h4
      simp only [runOps, List.foldl_cons, execOp, if_neg hne1] at h ⊢
      simp only [netLevel, opRecs, applyRecs]
      refine ⟨h.1, h.2.1, h.2.2.1, ?_, h.2.2.2.2⟩
      rw [h.2.2.2.1]
      simp

theorem run_toplevel (L : TxListener) (e0 : Engine) (body : List TxOp)
    (h0 : e0.updateLevel = 0) (h1 : e0.endingUpdate = false)
    (h2 : e0.currentEdit = [])
    (hpos : staysPosB 1 body = true) (hnet : netLevel 1 body = 1) :
    (runOps L e0 (TxOp.beginUpdate :: body ++ [TxOp.endUpdate])).past
      = ((applyRecs e0.tree (opRecs body)).2
          ++ (applyRecs (applyRecs e0.tree (opRecs body)).1
                (opRecs (L (applyRecs e0.tree (opRecs body)).2))).2)
        :: e0.past
    ∧ (runOps L e0 (TxOp.beginUpdate :: body ++ [TxOp.endUpdate])).changeNotifs
      = e0.changeNotifs
        ++ [(applyRecs e0.tree (opRecs body)).2
            ++ (applyRecs (applyRecs e0.tree (opRecs body)).1
                  (opRecs (L (applyRecs e0.tree (opRecs body)).2))).2]
    ∧ (runOps L e0 (TxOp.beginUpdate :: body ++ [TxOp.endUpdate])).currentEdit = []
    ∧ (runOps L e0 (TxOp.beginUpdate :: body ++ [TxOp.endUpdate])).future = []
    ∧ (runOps L e0 (TxOp.beginUpdate :: body ++ [TxOp.endUpdate])).endingUpdate = false
    ∧ (runOps L e0 (TxOp.beginUpdate :: body ++ [TxOp.endUpdate])).tree
      = (applyRecs (applyRecs e0.tree (opRecs body)).1
          (opRecs (L (applyRecs e0.tree (opRecs body)).2))).1 := by
  have hstep : runOps L e0 (TxOp.beginUpdate :: body ++ [TxOp.endUpdate])
      = execOp L (runOps L { e0 with updateLevel := e0.updateLevel + 1 } body)
          TxOp.endUpdate := by
    simp [runOps, execOp, List.foldl_append]
  have hb := runOps_body L body 1 { e0 with updateLevel := e0.updateLevel + 1 }
    (by omega) hpos (by simp [h0]) h1
  obtain ⟨hb1, hb2, hb3, hb4, hb5, hb6, hb7⟩ := hb
  set eB := runOps L { e0 with updateLevel := e0.updateLevel + 1 } body
  simp only at hb3 hb4 hb5 hb6 hb7
  have hfin : runOps L e0 (TxOp.beginUpdate :: body ++ [TxOp.endUpdate])
      = finalize L { eB with updateLevel := eB.updateLevel - 1 } := by
    rw [hstep]
    simp only [execOp]
    rw [if_neg (by omega), if_pos ?_]
    constructor
    · simp [hb1, hnet]
    · simp [hb2]
  have hcur : ({ eB with updateLevel := eB.updateLevel - 1 } : Engine).currentEdit
      = (applyRecs e0.tree (opRecs body)).2 := by
    simp [hb4, h2]
  have hpf := processFinalizing_fields
    (L ({ eB with updateLevel := eB.updateLevel - 1 } : Engine).currentEdit)
    { ({ eB with updateLevel := eB.updateLevel - 1 } : Engine) with
        endingUpdate := true }
  obtain ⟨hp1, hp2, hp3, hp4, hp5, hp6⟩ := hpf
  simp only at hp1 hp2 hp3 hp4 hp5 hp6
  refine ⟨?_, ?_, ?_, ?_, ?_, ?_⟩ <;>
    rw [hfin] <;>
    simp only [finalize, hp1, hp2, hp3, hp4, hp5, hp6] <;>
    simp [hb3, hb4, hb5, hb6, hb7, h2]

/-- C4: for every call pattern forming one balanced top-level
beginUpdate/endUpdate pair - however deeply nested inside - exactly one
Transaction is finalized (the past stack grows by exactly that one entry)
and exactly one change notification fires, carrying every Change Record
produced during the whole pattern in the order produced, including those a
listener adds recursively during finalization. -/
theorem claim_C4 (L : TxListener) (e0 : Engine) (body : List TxOp)
    (h0 : e0.updateLevel = 0) (h1 : e0.endingUpdate = false)
    (h2 : e0.currentEdit = [])
    (hpos : staysPosB 1 body = true) (hnet : netLevel 1 body = 1) :
    (runOps L e0 (TxOp.beginUpdate :: body ++ [TxOp.endUpdate])).past
      = ((applyRecs e0.tree (opRecs body)).2
          ++ (applyRecs (applyRecs e0.tree (opRecs body)).1
                (opRecs (L (applyRecs e0.tree (opRecs body)).2))).2)
        :: e0.past
    ∧ (runOps L e0 (TxOp.beginUpdate :: body ++ [TxOp.endUpdate])).changeNotifs
      = e0.changeNotifs
        ++ [(applyRecs e0.tree (opRecs body)).2
            ++ (applyRecs (applyRecs e0.tree (opRecs body)).1
                  (opRecs (L (applyRecs e0.tree (opRecs body)).2))).2]
    ∧ (runOps L e0 (TxOp.beginUpdate :: body ++ [TxOp.endUpdate])).currentEdit
        = [] := by
  have h := run_toplevel L e0 body h0 h1 h2 hpos hnet
  exact ⟨h.1, h.2.1, h.2.2.1⟩

/-- C1: every mutation a listener issues while the before-undo
notification of a top-level endUpdate is firing (as mxLayoutManager does
inside its own beginUpdate/endUpdate pair) is appended to the very
transaction being finalized, not to a new one, and a single undo() reverses
the original edit and the corrective changes together, restoring every
facet of the Document Tree. -/
theorem claim_C1 (L : TxListener) (e0 : Engine) (body : List TxOp)
    (h0 : e0.updateLevel = 0) (h1 : e0.endingUpdate = false)
    (h2 : e0.currentEdit = [])
    (hpos : staysPosB 1 body = true) (hnet : netLevel 1 body = 1) :
    (runOps L e0 (TxOp.beginUpdate :: body ++ [TxOp.endUpdate])).past
      = ((applyRecs e0.tree (opRecs body)).2
          ++ (applyRecs (applyRecs e0.tree (opRecs body)).1
                (opRecs (L (applyRecs e0.tree (opRecs body)).2))).2)
        :: e0.past
    ∧ ∀ k,
      (undoTx (runOps L e0 (TxOp.beginUpdate :: body ++ [TxOp.endUpdate]))).tree k
        = e0.tree k := by
  have h := run_toplevel L e0 body h0 h1 h2 hpos hnet
  refine ⟨h.1, ?_⟩
  intro k
  have htree := h.2.2.2.2.2
  have hall : applyRecs e0.tree
      (opRecs body ++ opRecs (L (applyRecs e0.tree (opRecs body)).2))
      = ((runOps L e0 (TxOp.beginUpdate :: body ++ [TxOp.endUpdate])).tree,
         (applyRecs e0.tree (opRecs body)).2
           ++ (applyRecs (applyRecs e0.tree (opRecs body)).1
                 (opRecs (L (applyRecs e0.tree (opRecs body)).2))).2) := by
    rw [applyRecs_append, htree]
  have hrepl := applyRecs_reverse_replay
    (opRecs body ++ opRecs (L (applyRecs e0.tree (opRecs body)).2)) e0.tree k
  rw [hall] at hrepl
  simp only [undoTx, h.1]
  exact hrepl

/-- The document tree in which every facet is 0. -/
def tree0 : DocTree := fun _ => 0

/-- A pristine engine over tree0. -/
def engine0 : Engine :=
  { tree := tree0, updateLevel := 0, endingUpdate := false, currentEdit := []
    past := [], future := [], changeNotifs := [] }

/-- A layout-manager-like listener: it reacts to before-undo by opening
its own update, executing a corrective change on facet 2, and closing the
update (compare mxLayoutManager.layoutCells). -/
def layoutListener : TxListener :=
  fun _ => [TxOp.beginUpdate, TxOp.execute 2 20, TxOp.endUpdate]

/-- Witness for C4: one edit on facet 1 plus a listener correction on
facet 2 finalize as one transaction and one notification carrying both
records in order. -/
theorem claim_C4_witness :
    (runOps layoutListener engine0
        (TxOp.beginUpdate :: [TxOp.execute 1 10] ++ [TxOp.endUpdate])).past
      = [[⟨1, 10, 0⟩, ⟨2, 20, 0⟩]]
    ∧ (runOps layoutListener engine0
        (TxOp.beginUpdate :: [TxOp.execute 1 10] ++ [TxOp.endUpdate])).changeNotifs
      = [[⟨1, 10, 0⟩, ⟨2, 20, 0⟩]]
    ∧ (runOps layoutListener engine0
        (TxOp.beginUpdate :: [TxOp.execute 1 10] ++ [TxOp.endUpdate])).currentEdit
      = [] := by
  have h := claim_C4 layoutListener engine0 [TxOp.execute 1 10]
    rfl rfl rfl (by decide) (by decide)
  refine ⟨?_, ?_, h.2.2⟩
  · rw [h.1]; rfl
  · rw [h.2.1]; rfl

/-- Witness for C1: after the transaction with the listener correction,
one undo restores both mutated facets to their initial values. -/
theorem claim_C1_witness :
    (runOps layoutListener engine0
        (TxOp.beginUpdate :: [TxOp.execute 1 10] ++ [TxOp.endUpdate])).past
      = [[⟨1, 10, 0⟩, ⟨2, 20, 0⟩]]
    ∧ (undoTx (runOps layoutListener engine0
        (TxOp.beginUpdate :: [TxOp.execute 1 10] ++ [TxOp.endUpdate]))).tree 1 = 0
    ∧ (undoTx (runOps layoutListener engine0
        (TxOp.beginUpdate :: [TxOp.execute 1 10] ++ [TxOp.endUpdate]))).tree 2
      = 0 := by
  have h := claim_C1 layoutListener engine0 [TxOp.execute 1 10]
    rfl rfl rfl (by decide) (by decide)
  exact ⟨by rw [h.1]; rfl, h.2 1, h.2 2⟩
